import Mathlib

/-
Verification development for the alicloud-duplicity repository.

The development shallowly embeds:
  - the archive naming codec (duplicity/file_naming.py is absent from the
    supplied sources, only its unit tests are present, so the codec is
    modelled from the specification's grammar and invariants);
  - the AliCloud OSS backend (duplicity/backends/alicloudbackend.py);
  - the WebDAV backend (duplicity/backends/webdavbackend.py);
  - the GnuPG process wait logic (duplicity/gpginterface.py).

Strings are modelled as lists of characters (the field String.data of the
Lean string type); String-level wrappers are provided where a claim speaks
about filename strings.
-/

/-! ## Reduced-radix numerals

Modelled from the spec: duplicity/file_naming.py (functions to_base36 and
from_base36) is not under src; only testing/unit/test_file_naming.py is.
The spec requires a reduced-radix numeral system that "must support both
directions exactly ... for the full range of representable UNIX timestamps".
The digit alphabet is 0-9 followed by the lowercase letters, least
significant digit last. The same machinery, restricted to radix 10, renders
decimal numerals for the verbose (long) naming mode and volume numbers. -/

def radixDigits : List Char := "0123456789abcdefghijklmnopqrstuvwxyz".data

def digCh (d : Nat) : Char := radixDigits.getD d '0'

def digIdx : List Char → Char → Nat
  | [], _ => 0
  | d :: rest, c => if d = c then 0 else digIdx rest c + 1

def digVal (c : Char) : Nat := digIdx radixDigits c

/-- Render n in radix b, digits most significant first, via structural
recursion on a fuel argument (n itself is enough fuel, since n / b < n on
every recursive step). The b < 2 guard never fires for the radixes the
codec uses (36 and 10). -/
def toRadixAux (b : Nat) : Nat → Nat → List Char
  | 0, n => [digCh n]
  | fuel + 1, n =>
    if n < b ∨ b < 2 then [digCh n]
    else toRadixAux b fuel (n / b) ++ [digCh (n % b)]

def toRadix (b n : Nat) : List Char := toRadixAux b n n

def fromRadix (b : Nat) (s : List Char) : Nat :=
  s.foldl (fun acc c => acc * b + digVal c) 0

def to_base36 (n : Nat) : List Char := toRadix 36 n

def from_base36 (s : List Char) : Nat := fromRadix 36 s

theorem digVal_digCh : ∀ d : Nat, d < 36 → digVal (digCh d) = d := by decide

theorem fromRadix_snoc (b : Nat) (s : List Char) (c : Char) :
    fromRadix b (s ++ [c]) = fromRadix b s * b + digVal c := by
  simp [fromRadix, List.foldl_append]

theorem fromRadix_toRadixAux (b : Nat) (hb : 2 ≤ b) (hb36 : b ≤ 36) :
    ∀ fuel n, n ≤ fuel → fromRadix b (toRadixAux b fuel n) = n := by
  intro fuel
  induction fuel with
  | zero =>
    intro n hn
    have h0 : n = 0 := by omega
    subst h0
    have hv : digVal (digCh 0) = 0 := digVal_digCh 0 (by omega)
    simp [toRadixAux, fromRadix, hv]
  | succ fuel ih =>
    intro n hn
    rw [toRadixAux]
    split
    · rename_i h
      have hnb : n < b := by
        rcases h with h | h
        · exact h
        · omega
      have hv : digVal (digCh n) = n := digVal_digCh n (by omega)
      simp [fromRadix, hv]
    · rename_i h
      rw [not_or] at h
      rw [fromRadix_snoc]
      have hdiv : n / b < n := Nat.div_lt_self (by omega) (by omega)
      rw [ih (n / b) (by omega)]
      have hmb : n % b < b := Nat.mod_lt n (by omega)
      have hm : digVal (digCh (n % b)) = n % b := digVal_digCh (n % b) (by omega)
      rw [hm]
      have := Nat.div_add_mod n b
      calc n / b * b + n % b = b * (n / b) + n % b := by ring
        _ = n := this

theorem fromRadix_toRadix (b : Nat) (hb : 2 ≤ b) (hb36 : b ≤ 36) (n : Nat) :
    fromRadix b (toRadix b n) = n :=
  fromRadix_toRadixAux b hb hb36 n n le_rfl

/-- C2: the reduced-radix (base-36) timestamp encoding loses no precision:
decoding the encoding of any natural number n (in particular every value in
the test list 0, 1, 10, 1313, 34233, 872338, 2342889, 134242234, 1204684368,
and the whole range 0 .. 2^34) returns n exactly. -/
theorem base36_roundtrip (n : Nat) : from_base36 (to_base36 n) = n :=
  fromRadix_toRadix 36 (by omega) (by omega) n

/-! ## AliCloud OSS backend (duplicity/backends/alicloudbackend.py)

The remote OSS store is modelled as a deterministic map from key to an
outcome: the object is present with a size, the object is absent (the SDK
raises oss2.exceptions.NoSuchKey), or the call fails for an unrelated
reason (network and service errors, which the backend code does not catch). -/

inductive OssOutcome where
  | found (size : Nat)
  | missing
  | failure
deriving DecidableEq

def OssStore : Type := String → OssOutcome

inductive OssError where
  | noSuchKey
  | connectionError
deriving DecidableEq

/-- Errors the backend itself raises. BackendException is duplicity's
generic (retriable) error class; FatalBackendException is the fatal one.
The AliCloud backend imports both but raises only BackendException. -/
inductive AliError where
  | backendError
  | fatalBackendError
deriving DecidableEq

/-- The oss2 bucket.get_object_meta call: returns the content length, or
raises NoSuchKey for an absent object, or fails with a service error. -/
def get_object_meta (store : OssStore) (key : String) : Except OssError Nat :=
  match store key with
  | .found size => .ok size
  | .missing => .error .noSuchKey
  | .failure => .error .connectionError

/-- The oss2 bucket.delete_object call. Modelled from the OSS DeleteObject
contract the backend relies on (the oss2 SDK is not part of the sources):
deleting an absent key succeeds; only service failures raise. Returns the
updated store together with the outcome. -/
def delete_object (store : OssStore) (key : String) :
    (String → OssOutcome) × Except OssError Unit :=
  match store key with
  | .failure => (store, .error .connectionError)
  | _ => (fun k => if k = key then .missing else store k, .ok ())

/-- The key-prefix computation of AliCloudBackend.__init__: split the URL
path on slashes, drop the empty segments, and join with single slashes plus
one trailing slash; an all-empty path yields the empty string. Mirrors
  self.url_parts = [x for x in parsed_url.path.split('/') if x != '']
  if self.url_parts: self.key_prefix = '%s/' % '/'.join(self.url_parts) -/
def splitOnChar (sep : Char) : List Char → List (List Char)
  | [] => [[]]
  | c :: rest =>
    if c = sep then [] :: splitOnChar sep rest
    else
      match splitOnChar sep rest with
      | [] => [[c]]
      | h :: t => (c :: h) :: t

def joinChar (sep : Char) : List (List Char) → List Char
  | [] => []
  | [t] => t
  | t :: rest => t ++ sep :: joinChar sep rest

def url_parts (path : String) : List (List Char) :=
  (splitOnChar '/' path.data).filter (fun x => x ≠ [])

def key_pref (path : String) : List Char :=
  if url_parts path = [] then [] else joinChar '/' (url_parts path) ++ ['/']

/-- The full remote key used by _put, _get, _delete and _query:
key_prefix + remote_filename. -/
def aliKey (path fn : String) : String := String.mk (key_pref path ++ fn.data)

/-- AliCloudBackend._query: get the object size, turning the NoSuchKey
exception into the size -1 sentinel; other exceptions propagate. -/
def aliQuery (store : OssStore) (path fn : String) : Except OssError Int :=
  match get_object_meta store (aliKey path fn) with
  | .ok size => .ok (Int.ofNat size)
  | .error .noSuchKey => .ok (-1)
  | .error e => .error e

/-- AliCloudBackend._query_list: query each filename in order, building the
filename-to-size mapping; an exception in any single query propagates. -/
def aliQueryList (store : OssStore) (path : String) (names : List String) :
    Except OssError (List (String × Int)) :=
  match names with
  | [] => .ok []
  | fn :: rest =>
    match aliQuery store path fn with
    | .error e => .error e
    | .ok size =>
      match aliQueryList store path rest with
      | .error e => .error e
      | .ok l => .ok ((fn, size) :: l)

/-- AliCloudBackend._delete: bucket.delete_object(key_prefix + filename). -/
def aliDelete (store : OssStore) (path fn : String) :
    (String → OssOutcome) × Except OssError Unit :=
  delete_object store (aliKey path fn)

/-! Construction-time configuration loading
(AliCloudBackend.get_alicloud_configuration). Environment variables are
modelled as three optional strings (present or absent from os.environ), the
~/.alicloud.cfg file as an optional record of its three oss-section values. -/

structure AliEnv where
  endpoint : Option String
  accessKeyId : Option String
  accessKeySecret : Option String

structure AliCfgFile where
  endpoint : String
  accessKeyId : String
  accessKeySecret : String

/-- AliCloudBackend.get_alicloud_configuration: if all three environment
variables are present they are used (raising BackendException when any is
empty); otherwise the configuration file is read (raising BackendException
when it does not exist or any value is empty). -/
def get_alicloud_configuration (env : AliEnv) (cfgFile : Option AliCfgFile) :
    Except AliError (String × String × String) :=
  match env.endpoint, env.accessKeyId, env.accessKeySecret with
  | some ep, some ki, some ks =>
    if ep = "" ∨ ki = "" ∨ ks = "" then .error .backendError
    else .ok (ep, ki, ks)
  | _, _, _ =>
    match cfgFile with
    | none => .error .backendError
    | some f =>
      if f.endpoint = "" ∨ f.accessKeyId = "" ∨ f.accessKeySecret = "" then
        .error .backendError
      else .ok (f.endpoint, f.accessKeyId, f.accessKeySecret)

/-! Connection lifecycle (AliCloudBackend.reset_connection,
_retry_cleanup). The backend-side state is the pair of an optional auth
context and an optional bucket handle; the server-side state records
whether the bucket exists. -/

structure AliAuth where
  accessKeyId : String
  accessKeySecret : String
deriving DecidableEq

structure AliBucketHandle where
  auth : AliAuth
  endpoint : String
  bucketName : String
deriving DecidableEq

structure AliConfig where
  accessKeyId : String
  accessKeySecret : String
  endpoint : String
  bucketName : String

structure AliSessionState where
  auth : Option AliAuth
  bucket : Option AliBucketHandle
deriving DecidableEq

/-- AliCloudBackend.reset_connection: drop the bucket handle, build a fresh
oss2.Auth and oss2.Bucket from the configuration, and create the bucket on
the server if it does not exist. The Bool component is the server-side
"bucket exists" state. -/
def reset_connection (cfg : AliConfig) :
    AliSessionState × Bool → AliSessionState × Bool :=
  fun st =>
    let auth : AliAuth := ⟨cfg.accessKeyId, cfg.accessKeySecret⟩
    let bucket : AliBucketHandle := ⟨auth, cfg.endpoint, cfg.bucketName⟩
    (⟨some auth, some bucket⟩, if st.2 then st.2 else true)

/-- AliCloudBackend._retry_cleanup: exactly self.reset_connection(). -/
def ali_retry_cleanup (cfg : AliConfig) :
    AliSessionState × Bool → AliSessionState × Bool :=
  reset_connection cfg

/-! ## WebDAV backend (duplicity/backends/webdavbackend.py)

The HTTP server is modelled as a deterministic function from (authorized?,
method, path) to a response carrying a status code and an optional Location
header value (already reduced to its sanitized path). XML parsing of the
PROPFIND body is abstracted: _list is modelled on the list of href values
the parse would produce, each given as the output of urlparse (an optional
hostname and a path), exactly the data taste_href inspects. -/

structure WdResponse where
  status : Nat
  location : Option String
deriving DecidableEq

def WdServer : Type := Bool → String → String → WdResponse

/-- Errors the WebDAV backend raises, tagged by the Python exception class
they correspond to: fatalRedirectLimit and fatalMissingLocation are
FatalBackendException, badStatus and hostnameMismatch are the generic
BackendException. -/
inductive WdError where
  | fatalRedirectLimit
  | fatalMissingLocation
  | badStatus (status : Nat)
  | hostnameMismatch
deriving DecidableEq

/-- Which of the WebDAV error values correspond to FatalBackendException
(fatal, never retried) as opposed to BackendException. -/
def wdIsFatal : WdError → Bool
  | .fatalRedirectLimit => true
  | .fatalMissingLocation => true
  | .badStatus _ => false
  | .hostnameMismatch => false

/-- WebDAVBackend.sanitize_path: collapse runs of slashes in path + '/',
or '/' for an empty path. -/
def collapseSlashes : List Char → List Char
  | [] => []
  | c :: rest =>
    if c = '/' then
      match rest with
      | [] => [c]
      | d :: _ => if d = '/' then collapseSlashes rest else c :: collapseSlashes rest
    else c :: collapseSlashes rest

def sanitize_path (p : String) : String :=
  if p = "" then "/" else String.mk (collapseSlashes (p.data ++ ['/']))

/-- WebDAVBackend.request, with its response and recursion counter: a 301
or 302 answer to a PROPFIND is followed to the Location header path,
raising FatalBackendException once the counter exceeds 10 or when the
header is absent; a 401 answer triggers exactly one authorized retry whose
response is returned as is; every other response is returned to the caller. -/
def wdRequest (server : WdServer) (method path : String) (redirected : Nat) :
    Except WdError WdResponse :=
  let resp := server false method path
  if (resp.status = 301 ∨ resp.status = 302) ∧ method = "PROPFIND" then
    match resp.location with
    | some loc =>
      if 10 < redirected then Except.error WdError.fatalRedirectLimit
      else wdRequest server method (sanitize_path loc) (redirected + 1)
    | none => Except.error WdError.fatalMissingLocation
  else if resp.status = 401 then Except.ok (server true method path)
  else Except.ok resp
termination_by 11 - redirected
decreasing_by omega

/-- Instrumented variant of wdRequest that also counts how many requests
are issued to the server (the redirect-following recursion depth; the
one-shot 401 retry is issued at the same depth). -/
def wdRequestHops (server : WdServer) (method path : String) (redirected : Nat) :
    Except WdError WdResponse × Nat :=
  let resp := server false method path
  if (resp.status = 301 ∨ resp.status = 302) ∧ method = "PROPFIND" then
    match resp.location with
    | some loc =>
      if 10 < redirected then (Except.error WdError.fatalRedirectLimit, 1)
      else
        let r := wdRequestHops server method (sanitize_path loc) (redirected + 1)
        (r.1, r.2 + 1)
    | none => (Except.error WdError.fatalMissingLocation, 1)
  else if resp.status = 401 then (Except.ok (server true method path), 1)
  else (Except.ok resp, 1)
termination_by 11 - redirected
decreasing_by omega

/-- The urlparse output taste_href inspects: an optional hostname and the
path component of the href text. -/
structure WdHref where
  hostname : Option String
  path : String

/-- WebDAVBackend.taste_href: raise BackendException when the href carries
a hostname different from the backend URL's hostname; otherwise return the
filename with the directory stripped, or none when the path does not start
with the directory (the href is silently ignored). -/
def taste_href (selfHostname : Option String) (directory : String)
    (href : WdHref) : Except WdError (Option String) :=
  match href.hostname with
  | some hn =>
    if some hn ≠ selfHostname then Except.error WdError.hostnameMismatch
    else
      if directory.data.isPrefixOf href.path.data then
        Except.ok (some (String.mk (href.path.data.drop directory.data.length)))
      else Except.ok none
  | none =>
    if directory.data.isPrefixOf href.path.data then
      Except.ok (some (String.mk (href.path.data.drop directory.data.length)))
    else Except.ok none

/-- The href loop of WebDAVBackend._list: taste every href of the PROPFIND
answer, collecting the matching filenames; an exception raised by
taste_href aborts the listing. -/
def wdList (selfHostname : Option String) (directory : String) :
    List WdHref → Except WdError (List String)
  | [] => Except.ok []
  | h :: rest =>
    match taste_href selfHostname directory h with
    | Except.error e => Except.error e
    | Except.ok none => wdList selfHostname directory rest
    | Except.ok (some fn) =>
      match wdList selfHostname directory rest with
      | Except.error e => Except.error e
      | Except.ok l => Except.ok (fn :: l)

/-- WebDAVBackend._delete: issue a DELETE request for directory + filename
and raise BackendException unless the status is 200 or 204. -/
def wdDelete (server : WdServer) (directory fn : String) : Except WdError Unit :=
  match wdRequest server "DELETE" (directory ++ fn) 0 with
  | Except.error e => Except.error e
  | Except.ok resp =>
    if resp.status = 200 ∨ resp.status = 204 then Except.ok ()
    else Except.error (WdError.badStatus resp.status)

/-! ## GnuPG process wait (duplicity/gpginterface.py) -/

/-- threaded_waitpid: store the status collected by os.waitpid, or 0 when
waitpid raises because the process was already reaped. The argument is the
waitpid outcome: some status, or none for the exception path. -/
def threaded_waitpid (waitpidResult : Option Nat) : Nat :=
  match waitpidResult with
  | some status => status
  | none => 0

inductive GpgError where
  | gpgExitNonZero (code : Nat)
deriving DecidableEq

/-- Process.wait: raise IOError carrying returned >> 8 exactly when the
collected status is non-zero. -/
def process_wait (returned : Nat) : Except GpgError Unit :=
  if returned ≠ 0 then Except.error (GpgError.gpgExitNonZero (returned >>> 8))
  else Except.ok ()

/-! ## Theorems about the AliCloud backend -/

theorem aliQueryList_total (store : OssStore) (path : String) :
    ∀ names : List String, (∀ g ∈ names, store (aliKey path g) ≠ .failure) →
    ∃ l, aliQueryList store path names = .ok l ∧
      ∀ g ∈ names, store (aliKey path g) = .missing → List.lookup g l = some (-1) := by
  intro names
  induction names with
  | nil => exact fun _ => ⟨[], rfl, by simp⟩
  | cons g rest ih =>
    intro h
    have hg : store (aliKey path g) ≠ .failure := h g (List.mem_cons_self g rest)
    obtain ⟨l, hl, hp⟩ := ih (fun x hx => h x (List.mem_cons_of_mem g hx))
    cases hout : store (aliKey path g) with
    | failure => exact absurd hout hg
    | found n =>
      refine ⟨(g, Int.ofNat n) :: l, ?_, ?_⟩
      · simp [aliQueryList, aliQuery, get_object_meta, hout, hl]
      · intro x hx hmx
        by_cases hxg : x = g
        · subst hxg
          rw [hout] at hmx
          cases hmx
        · rcases List.mem_cons.mp hx with hx1 | hx2
          · exact absurd hx1 hxg
          · have hb : (x == g) = false := beq_eq_false_iff_ne.mpr hxg
            simp only [List.lookup, hb]
            exact hp x hx2 hmx
    | missing =>
      refine ⟨(g, -1) :: l, ?_, ?_⟩
      · simp [aliQueryList, aliQuery, get_object_meta, hout, hl]
      · intro x hx hmx
        by_cases hxg : x = g
        · subst hxg
          simp [List.lookup]
        · rcases List.mem_cons.mp hx with hx1 | hx2
          · exact absurd hx1 hxg
          · have hb : (x == g) = false := beq_eq_false_iff_ne.mpr hxg
            simp only [List.lookup, hb]
            exact hp x hx2 hmx

/-- C3: _query on a missing object returns the size -1 sentinel instead of
raising, and _query_list maps every missing name of its input list to that
same sentinel (provided no query fails for an unrelated service reason). -/
theorem query_missing_returns_sentinel (store : OssStore) (path fn : String)
    (names : List String)
    (hmiss : store (aliKey path fn) = .missing)
    (hok : ∀ g ∈ names, store (aliKey path g) ≠ .failure) :
    aliQuery store path fn = .ok (-1) ∧
    ∃ l, aliQueryList store path names = .ok l ∧
      ∀ g ∈ names, store (aliKey path g) = .missing →
        List.lookup g l = some (-1) := by
  constructor
  · simp [aliQuery, get_object_meta, hmiss]
  · exact aliQueryList_total store path names hok

theorem query_missing_returns_sentinel_witness :
    ((fun _ : String => OssOutcome.missing) "d" = OssOutcome.missing ∧
      ∀ g ∈ ["a", "b"], (fun _ : String => OssOutcome.missing) g ≠ OssOutcome.failure) ∧
    aliQuery (fun _ => OssOutcome.missing) "p" "d" = .ok (-1) := by
  refine ⟨⟨rfl, by decide⟩, ?_⟩
  have h := query_missing_returns_sentinel (fun _ => OssOutcome.missing) "p" "d"
    ["a", "b"] rfl (by intro g _; simp)
  exact h.1

/-- C4 counterexample: the claim "for every transport implementation,
delete of an absent object returns normally" is false on the WebDAV
backend: a server that answers DELETE on the absent object with 404 (the
HTTP status for an absent resource) makes WebDAVBackend._delete raise
BackendException rather than return normally. -/
theorem delete_missing_webdav_counterexample :
    wdDelete (fun _ _ _ => ⟨404, none⟩) "/" "x" =
      Except.error (WdError.badStatus 404) ∧
    ∀ u : Unit, wdDelete (fun _ _ _ => ⟨404, none⟩) "/" "x" ≠ Except.ok u := by
  have h : wdDelete (fun _ _ _ => ⟨404, none⟩) "/" "x" =
      Except.error (WdError.badStatus 404) := by
    simp [wdDelete, wdRequest]
  refine ⟨h, fun u hu => ?_⟩
  rw [h] at hu
  cases hu

/-- C4 amended: delete of a nonexistent object completes without error on
the AliCloud backend (the OSS DeleteObject call succeeds for an absent
key), while the WebDAV backend raises BackendException when the server
answers the DELETE with 404 for the absent object. -/
theorem delete_missing_semantics (store : OssStore) (path fn : String)
    (server : WdServer) (dir f2 : String)
    (hmiss : store (aliKey path fn) = .missing)
    (h404 : (server false "DELETE" (dir ++ f2)).status = 404) :
    (aliDelete store path fn).2 = .ok () ∧
    wdDelete server dir f2 = Except.error (WdError.badStatus 404) := by
  constructor
  · simp [aliDelete, delete_object, hmiss]
  · simp [wdDelete, wdRequest, h404]

theorem delete_missing_semantics_witness :
    ((fun _ : String => OssOutcome.missing) (aliKey "p" "f") = OssOutcome.missing ∧
      ((fun _ _ _ => (⟨404, none⟩ : WdResponse)) false "DELETE" ("/" ++ "x")).status = 404) ∧
    (aliDelete (fun _ => OssOutcome.missing) "p" "f").2 = .ok () := by
  refine ⟨⟨rfl, rfl⟩, ?_⟩
  exact (delete_missing_semantics (fun _ => OssOutcome.missing) "p" "f"
    (fun _ _ _ => ⟨404, none⟩) "/" "x" rfl rfl).1

/-! ## Theorems about the WebDAV backend -/

theorem wdRequestHops_bound (srv : WdServer) (m : String) :
    ∀ j k p, 11 ≤ k + j → (wdRequestHops srv m p k).2 ≤ j + 1 := by
  intro j
  induction j with
  | zero =>
    intro k p hk
    rw [wdRequestHops]
    have hk10 : 10 < k := by omega
    split
    · cases hloc : (srv false m p).location with
      | some loc => simp [hk10]
      | none => rfl
    · split
      · rfl
      · rfl
  | succ j ih =>
    intro k p hk
    rw [wdRequestHops]
    split
    · cases hloc : (srv false m p).location with
      | some loc =>
        simp only [hloc]
        by_cases hk10 : 10 < k
        · simp [hk10]
        · rw [if_neg hk10]
          have hrec := ih (k + 1) (sanitize_path loc) (by omega)
          simpa using Nat.add_le_add_right hrec 1
      | none => simp [hloc]
    · split
      · simp
      · simp

theorem wdRequest_always_redirect (srv : WdServer)
    (hredir : ∀ q, ((srv false "PROPFIND" q).status = 301 ∨
        (srv false "PROPFIND" q).status = 302) ∧
      (srv false "PROPFIND" q).location ≠ none) :
    ∀ j k p, 11 ≤ k + j →
      wdRequest srv "PROPFIND" p k = Except.error WdError.fatalRedirectLimit := by
  intro j
  induction j with
  | zero =>
    intro k p hk
    rw [wdRequest]
    obtain ⟨hst, hloc⟩ := hredir p
    cases hl : (srv false "PROPFIND" p).location with
    | none => exact absurd hl hloc
    | some loc =>
      rw [if_pos ⟨hst, rfl⟩]
      simp only [hl]
      have hk10 : 10 < k := by omega
      rw [if_pos hk10]
  | succ j ih =>
    intro k p hk
    rw [wdRequest]
    obtain ⟨hst, hloc⟩ := hredir p
    cases hl : (srv false "PROPFIND" p).location with
    | none => exact absurd hl hloc
    | some loc =>
      rw [if_pos ⟨hst, rfl⟩]
      simp only [hl]
      by_cases hk10 : 10 < k
      · rw [if_pos hk10]
      · rw [if_neg hk10]
        exact ih (k + 1) (sanitize_path loc) (by omega)

/-- A server that answers every request with a 301 redirect to /r. -/
def constRedirectServer : WdServer := fun _ _ _ => ⟨301, some "/r"⟩

/-- C5: the PROPFIND redirect-following recursion of WebDAVBackend.request
is bounded: starting from recursion counter r it issues at most 12 - r
requests, and a server whose PROPFIND answers are always 301/302 redirects
with a Location header makes it raise FatalBackendException (redirected 10
times, giving up) instead of recursing further. -/
theorem request_redirect_bound (server : WdServer) (method path : String)
    (r : Nat) (hr : r ≤ 11)
    (hredir : ∀ q, ((server false "PROPFIND" q).status = 301 ∨
        (server false "PROPFIND" q).status = 302) ∧
      (server false "PROPFIND" q).location ≠ none) :
    (wdRequestHops server method path r).2 ≤ 12 - r ∧
    wdRequest server "PROPFIND" path r = Except.error WdError.fatalRedirectLimit := by
  constructor
  · have h := wdRequestHops_bound server method (11 - r) r path (by omega)
    omega
  · exact wdRequest_always_redirect server hredir (11 - r) r path (by omega)

theorem request_redirect_bound_witness :
    ((0 : Nat) ≤ 11 ∧
      ∀ q : String, ((constRedirectServer false "PROPFIND" q).status = 301 ∨
          (constRedirectServer false "PROPFIND" q).status = 302) ∧
        (constRedirectServer false "PROPFIND" q).location ≠ none) ∧
    wdRequest constRedirectServer "PROPFIND" "/" 0 =
      Except.error WdError.fatalRedirectLimit := by
  refine ⟨⟨by omega, fun q => ⟨Or.inl rfl, by simp [constRedirectServer]⟩⟩, ?_⟩
  exact (request_redirect_bound constRedirectServer "GET" "/" 0 (by omega)
    (fun q => ⟨Or.inl rfl, by simp [constRedirectServer]⟩)).2

theorem taste_href_error_is_mismatch (selfHost : Option String)
    (dir : String) (h : WdHref) (e : WdError)
    (herr : taste_href selfHost dir h = Except.error e) :
    e = WdError.hostnameMismatch := by
  cases hh : h.hostname with
  | none =>
    by_cases hp : dir.data.isPrefixOf h.path.data
    · simp [taste_href, hh, hp] at herr
    · simp [taste_href, hh, hp] at herr
  | some hn =>
    by_cases hne : some hn = selfHost
    · subst hne
      by_cases hp : dir.data.isPrefixOf h.path.data
      · simp [taste_href, hh, hp] at herr
      · simp [taste_href, hh, hp] at herr
    · simp [taste_href, hh, hne] at herr
      exact herr.symm

/-- C6 counterexample: a listed href whose hostname differs from the
backend hostname makes _list raise, but with the generic BackendException
(retriable class), not with a FatalBackendException as the claim states. -/
theorem hostname_mismatch_counterexample :
    wdList (some "host-a") "/" [⟨some "host-b", "/f"⟩] =
      Except.error WdError.hostnameMismatch ∧
    ¬ ∃ e, wdIsFatal e = true ∧
      wdList (some "host-a") "/" [⟨some "host-b", "/f"⟩] = Except.error e := by
  have h : wdList (some "host-a") "/" [⟨some "host-b", "/f"⟩] =
      Except.error WdError.hostnameMismatch := by
    simp [wdList, taste_href]
  refine ⟨h, ?_⟩
  rintro ⟨e, hfat, he⟩
  rw [h] at he
  cases he
  cases hfat

/-- C6 amended: whenever any href of a WebDAV listing carries a hostname
different from the backend URL's hostname, the _list href loop raises
BackendException (duplicity's generic, non-fatal error class); the
mismatching filename is never silently dropped or returned. -/
theorem hostname_mismatch_raises (selfHost : Option String) (dir : String)
    (hrefs : List WdHref) (h : WdHref) (hn : String)
    (hmem : h ∈ hrefs) (hhn : h.hostname = some hn) (hne : some hn ≠ selfHost) :
    wdList selfHost dir hrefs = Except.error WdError.hostnameMismatch := by
  induction hrefs with
  | nil => cases hmem
  | cons a rest ih =>
    rcases List.mem_cons.mp hmem with rfl | hmem2
    · have hta : taste_href selfHost dir h = Except.error WdError.hostnameMismatch := by
        simp [taste_href, hhn, hne]
      simp [wdList, hta]
    · cases hta : taste_href selfHost dir a with
      | error e =>
        have he := taste_href_error_is_mismatch selfHost dir a e hta
        subst he
        simp [wdList, hta]
      | ok r =>
        have hrest := ih hmem2
        cases r with
        | none => simp [wdList, hta, hrest]
        | some fn => simp [wdList, hta, hrest]

theorem hostname_mismatch_raises_witness :
    ((⟨some "host-b", "/f"⟩ : WdHref) ∈ [(⟨some "host-b", "/f"⟩ : WdHref)] ∧
      (⟨some "host-b", "/f"⟩ : WdHref).hostname = some "host-b" ∧
      some "host-b" ≠ some "host-a") ∧
    wdList (some "host-a") "/x/" [⟨some "host-b", "/f"⟩] =
      Except.error WdError.hostnameMismatch := by
  refine ⟨⟨List.mem_cons_self _ _, rfl, by simp⟩, ?_⟩
  exact hostname_mismatch_raises (some "host-a") "/x/" [⟨some "host-b", "/f"⟩]
    ⟨some "host-b", "/f"⟩ "host-b" (List.mem_cons_self _ _) rfl (by simp)

/-! ## Theorems about configuration loading and the session lifecycle -/

theorem ali_config_never_fatal (env : AliEnv) (c : Option AliCfgFile) :
    get_alicloud_configuration env c ≠ Except.error AliError.fatalBackendError := by
  obtain ⟨e1, e2, e3⟩ := env
  rw [get_alicloud_configuration.eq_def]
  cases e1 <;> cases e2 <;> cases e3 <;> cases c <;> (try dsimp only) <;>
    (try split) <;> simp

/-- C7 counterexample: with no environment variables and no configuration
file, construction raises the generic BackendException, not the
FatalBackendException class the claim calls for. -/
theorem ali_config_error_class_counterexample :
    get_alicloud_configuration ⟨none, none, none⟩ none =
      Except.error AliError.backendError ∧
    get_alicloud_configuration ⟨none, none, none⟩ none ≠
      Except.error AliError.fatalBackendError := by
  constructor
  · rfl
  · intro h
    cases h

/-- C7 amended: endpoint and credentials come from the environment first
(used whenever all three variables are present and non-empty, regardless
of the configuration file), from the configuration file second (whenever
some environment variable is absent), and when neither source provides
values the constructor raises immediately — with BackendException,
duplicity's generic error class, for every error exit of this function. -/
theorem ali_config_sourcing (env : AliEnv) (cfgFile : Option AliCfgFile)
    (ep ki ks : String)
    (henv : env.endpoint = some ep ∧ env.accessKeyId = some ki ∧
      env.accessKeySecret = some ks) :
    (ep ≠ "" ∧ ki ≠ "" ∧ ks ≠ "" →
      get_alicloud_configuration env cfgFile = Except.ok (ep, ki, ks)) ∧
    (∀ env2 : AliEnv, env2.endpoint = none →
      get_alicloud_configuration env2 cfgFile =
        (match cfgFile with
         | none => Except.error AliError.backendError
         | some f =>
           if f.endpoint = "" ∨ f.accessKeyId = "" ∨ f.accessKeySecret = "" then
             Except.error AliError.backendError
           else Except.ok (f.endpoint, f.accessKeyId, f.accessKeySecret))) ∧
    (∀ env3 cfg3 e, get_alicloud_configuration env3 cfg3 = Except.error e →
      e = AliError.backendError) := by
  obtain ⟨h1, h2, h3⟩ := henv
  refine ⟨?_, ?_, ?_⟩
  · intro ⟨hep, hki, hks⟩
    rw [get_alicloud_configuration.eq_def, h1, h2, h3]
    simp [hep, hki, hks]
  · intro env2 hnone
    rw [get_alicloud_configuration.eq_def, hnone]
  · intro env3 cfg3 e herr
    cases e with
    | backendError => rfl
    | fatalBackendError => exact absurd herr (ali_config_never_fatal env3 cfg3)

theorem ali_config_sourcing_witness :
    ((⟨some "e", some "i", some "s"⟩ : AliEnv).endpoint = some "e" ∧
      (⟨some "e", some "i", some "s"⟩ : AliEnv).accessKeyId = some "i" ∧
      (⟨some "e", some "i", some "s"⟩ : AliEnv).accessKeySecret = some "s") ∧
    (("e" : String) ≠ "" ∧ ("i" : String) ≠ "" ∧ ("s" : String) ≠ "" →
      get_alicloud_configuration ⟨some "e", some "i", some "s"⟩ none =
        Except.ok ("e", "i", "s")) := by
  refine ⟨⟨rfl, rfl, rfl⟩, ?_⟩
  exact (ali_config_sourcing ⟨some "e", some "i", some "s"⟩ none "e" "i" "s"
    ⟨rfl, rfl, rfl⟩).1

/-- C8: reset_connection is idempotent — running it twice from any state
equals running it once; after it runs, a fresh auth context and bucket
handle exist and the bucket exists on the server (created when absent);
and the retry cleanup hook _retry_cleanup is exactly this reset. -/
theorem reset_connection_idempotent (cfg : AliConfig)
    (s : AliSessionState × Bool) :
    reset_connection cfg (reset_connection cfg s) = reset_connection cfg s ∧
    ((reset_connection cfg s).1.auth =
        some ⟨cfg.accessKeyId, cfg.accessKeySecret⟩ ∧
      (reset_connection cfg s).1.bucket =
        some ⟨⟨cfg.accessKeyId, cfg.accessKeySecret⟩, cfg.endpoint,
          cfg.bucketName⟩ ∧
      (reset_connection cfg s).2 = true) ∧
    (∀ t, ali_retry_cleanup cfg t = reset_connection cfg t) := by
  constructor
  · cases hs : s.2 <;> simp [reset_connection]
  constructor
  · refine ⟨rfl, rfl, ?_⟩
    cases hs : s.2 <;> simp [reset_connection, hs]
  · exact fun t => rfl

/-! ## Theorem about the GnuPG process wait -/

/-- C9: Process.wait raises the distinct GnuPG IOError exactly when the
status collected by the waitpid thread is non-zero (the error carries
status right-shifted by 8, the exit code), and returns normally when the
status is zero; when waitpid itself raised because the process was already
reaped, the collected status is 0 and wait returns normally. -/
theorem process_wait_nonzero_iff (status : Nat) :
    process_wait (threaded_waitpid (some status)) =
      (if status = 0 then Except.ok ()
       else Except.error (GpgError.gpgExitNonZero (status >>> 8))) ∧
    process_wait (threaded_waitpid none) = Except.ok () := by
  constructor
  · by_cases h0 : status = 0
    · simp [process_wait, threaded_waitpid, h0]
    · simp [process_wait, threaded_waitpid, h0]
  · rfl

/-! ## Theorem about the AliCloud key prefix -/

/-- C10: the computed key prefix is the slash-join of the path's non-empty
segments followed by exactly one trailing slash, and empty when there is no
non-empty segment; any two URL paths with the same non-empty segments (for
example paths differing only in repeated or leading/trailing slashes) yield
the same key prefix, and the remote key of put/get/delete/query is always
key_prefix + filename. -/
theorem ali_key_pref_invariant (p1 p2 : String)
    (hsegs : url_parts p1 = url_parts p2) :
    key_pref p1 = key_pref p2 ∧
    (url_parts p1 = [] → key_pref p1 = []) ∧
    (url_parts p1 ≠ [] → key_pref p1 = joinChar '/' (url_parts p1) ++ ['/']) ∧
    (∀ fn : String, (aliKey p1 fn).data = key_pref p1 ++ fn.data) := by
  refine ⟨?_, ?_, ?_, ?_⟩
  · rw [key_pref, key_pref, hsegs]
  · intro h
    rw [key_pref, if_pos h]
  · intro h
    rw [key_pref, if_neg h]
  · intro fn
    rfl

theorem ali_key_pref_invariant_witness :
    url_parts "//bucket///key_pre/" = url_parts "//bucket/key_pre" ∧
    key_pref "//bucket///key_pre/" = key_pref "//bucket/key_pre" := by
  have h : url_parts "//bucket///key_pre/" = url_parts "//bucket/key_pre" := by
    decide
  exact ⟨h, (ali_key_pref_invariant "//bucket///key_pre/" "//bucket/key_pre" h).1⟩

/-! ## Archive naming codec

Modelled from the spec: duplicity/file_naming.py is not under src (only
testing/unit/test_file_naming.py is), so the codec below follows the
specification's data model and filename grammar. A ChainEntry holds the set
type, the time range (a single timestamp for full and full-signature sets,
a start/end pair for incremental and new-signature sets, stored here as
startTime/endTime with endTime = startTime for single-timestamp types), the
volume number (positive for the volume-split archive types full and inc,
zero otherwise) and the four independent flags manifest, compressed,
encrypted and partial. Filenames are dot-separated token lists: a set-type
token, the timestamps (verbose decimal rendering in long mode, the
reduced-radix base-36 rendering in short mode, with the literal "to"
separator between start and end in long mode only — short mode drops it in
favour of adjacency), "vol" + volume number for the volume types, then the
optional suffix tokens in the fixed order manifest, gz, gpg, part. The
spec leaves exact token text implementation-defined; the verbose timestamp
form is modelled as the decimal rendering of the epoch seconds. Encoding
prepends the configured global prefix and then the type-specific prefix
(manifest / signature / archive) selected by the entry; decoding strips
the global prefix, then attempts each type-specific prefix in turn,
parsing the remainder against that prefix class's grammar, and accepts
only canonical spellings (anything else is "no match", never an error). -/

inductive SetType where
  | full
  | inc
  | fullSig
  | newSig
deriving DecidableEq

structure ChainEntry where
  setType : SetType
  startTime : Nat
  endTime : Nat
  volumeNumber : Nat
  manifest : Bool
  compressed : Bool
  encrypted : Bool
  partialFlag : Bool
deriving DecidableEq

/-- Set types whose time range is a (start, end) pair. -/
def isRangeType : SetType → Bool
  | .inc => true
  | .newSig => true
  | _ => false

/-- Set types carrying a volume number (volume-split archive parts). -/
def hasVolume : SetType → Bool
  | .full => true
  | .inc => true
  | _ => false

/-- Signature set types (decorated with the signature prefix). -/
def isSigType : SetType → Bool
  | .fullSig => true
  | .newSig => true
  | _ => false

/-- Valid entries: single-timestamp types store the timestamp in both time
fields, volume types have a positive volume number, the others volume 0. -/
def ValidEntry (e : ChainEntry) : Prop :=
  (isRangeType e.setType = false → e.endTime = e.startTime) ∧
  (hasVolume e.setType = true → 1 ≤ e.volumeNumber) ∧
  (hasVolume e.setType = false → e.volumeNumber = 0)

instance (e : ChainEntry) : Decidable (ValidEntry e) := by
  unfold ValidEntry
  infer_instance

/-- The naming configuration: short or long mode plus the four prefixes
(globals short_filenames, file_prefix, file_prefix_manifest,
file_prefix_signature, file_prefix_archive). -/
structure NamingConfig where
  shortNames : Bool
  filePref : String
  manifestPref : String
  signaturePref : String
  archivePref : String

def typeTok : SetType → List Char
  | .full => ['f', 'u', 'l', 'l']
  | .inc => ['i', 'n', 'c']
  | .fullSig => ['f', 'u', 'l', 'l', '-', 's', 'i', 'g']
  | .newSig => ['n', 'e', 'w', '-', 's', 'i', 'g']

def toTok : List Char := ['t', 'o']

def volCh : List Char := ['v', 'o', 'l']

def manifestTok : List Char := ['m', 'a', 'n', 'i', 'f', 'e', 's', 't']

def gzTok : List Char := ['g', 'z']

def gpgTok : List Char := ['g', 'p', 'g']

def partTok : List Char := ['p', 'a', 'r', 't']

def timeTok (short : Bool) (t : Nat) : List Char :=
  if short then toRadix 36 t else toRadix 10 t

def volTok (n : Nat) : List Char := volCh ++ toRadix 10 n

def timeToks (short : Bool) (e : ChainEntry) : List (List Char) :=
  if isRangeType e.setType then
    if short then [timeTok short e.startTime, timeTok short e.endTime]
    else [timeTok short e.startTime, toTok, timeTok short e.endTime]
  else [timeTok short e.startTime]

def volToks (e : ChainEntry) : List (List Char) :=
  if hasVolume e.setType then [volTok e.volumeNumber] else []

def sfxOf (m c en p : Bool) : List (List Char) :=
  (if m then [manifestTok] else []) ++ (if c then [gzTok] else []) ++
  (if en then [gpgTok] else []) ++ (if p then [partTok] else [])

def sfxToks (e : ChainEntry) : List (List Char) :=
  sfxOf e.manifest e.compressed e.encrypted e.partialFlag

def bodyToks (short : Bool) (e : ChainEntry) : List (List Char) :=
  typeTok e.setType :: (timeToks short e ++ volToks e ++ sfxToks e)

def joinDots : List (List Char) → List Char := joinChar '.'

def splitDots : List Char → List (List Char) := splitOnChar '.'

def body (short : Bool) (e : ChainEntry) : List Char :=
  joinDots (bodyToks short e)

/-- The three type-specific prefix classes of the spec. -/
inductive PrefClass where
  | maniPref
  | sigPref
  | archPref
deriving DecidableEq

/-- The prefix class an entry is written under: manifest prefix for
manifest-flagged entries, signature prefix for signature set types,
archive prefix otherwise. -/
def branchOf (e : ChainEntry) : PrefClass :=
  if e.manifest then .maniPref
  else if isSigType e.setType then .sigPref
  else .archPref

def classPref (cfg : NamingConfig) : PrefClass → List Char
  | .maniPref => cfg.manifestPref.data
  | .sigPref => cfg.signaturePref.data
  | .archPref => cfg.archivePref.data

/-- Encoding: global prefix, then the type-specific prefix, then the
dot-separated grammar body. -/
def encodeL (cfg : NamingConfig) (e : ChainEntry) : List Char :=
  cfg.filePref.data ++ classPref cfg (branchOf e) ++ body cfg.shortNames e

/-- file_naming.get: the filename string encoding an entry. -/
def file_naming_get (cfg : NamingConfig) (e : ChainEntry) : String :=
  String.mk (encodeL cfg e)

def dropPref : List Char → List Char → Option (List Char)
  | [], s => some s
  | _ :: _, [] => none
  | p :: ps, c :: cs => if p = c then dropPref ps cs else none

/-- Peel one expected optional token off the front of a token list. -/
def peelTok (tok : List Char) (ts : List (List Char)) :
    Bool × List (List Char) :=
  match ts with
  | [] => (false, [])
  | t :: rest => if t = tok then (true, rest) else (false, ts)

/-- Parse the suffix tokens: fixed order manifest, gz, gpg, part, each
optional, nothing may remain. -/
def parseSfx (ts : List (List Char)) : Option (Bool × Bool × Bool × Bool) :=
  let pm := peelTok manifestTok ts
  let pc := peelTok gzTok pm.2
  let pe := peelTok gpgTok pc.2
  let pp := peelTok partTok pe.2
  if pp.2 = [] then some (pm.1, pc.1, pe.1, pp.1) else none

def parseVolTok (t : List Char) : Option Nat :=
  match dropPref volCh t with
  | some ds => some (fromRadix 10 ds)
  | none => none

def timeVal (short : Bool) (t : List Char) : Nat :=
  if short then fromRadix 36 t else fromRadix 10 t

def mkEntry (st : SetType) (t1 t2 vol : Nat)
    (f : Bool × Bool × Bool × Bool) : ChainEntry :=
  ⟨st, t1, t2, vol, f.1, f.2.1, f.2.2.1, f.2.2.2⟩

/-- Positional parse of a body token list (lenient on numeral spelling;
parseBody rejects non-canonical spellings afterwards). -/
def parseBodyToks (short : Bool) (ts : List (List Char)) : Option ChainEntry :=
  match ts with
  | [] => none
  | ty :: rest =>
    if ty = typeTok .full then
      match rest with
      | tT :: vT :: sfx =>
        match parseVolTok vT, parseSfx sfx with
        | some v, some f =>
          some (mkEntry .full (timeVal short tT) (timeVal short tT) v f)
        | _, _ => none
      | _ => none
    else if ty = typeTok .inc then
      if short then
        match rest with
        | t1 :: t2 :: vT :: sfx =>
          match parseVolTok vT, parseSfx sfx with
          | some v, some f =>
            some (mkEntry .inc (timeVal short t1) (timeVal short t2) v f)
          | _, _ => none
        | _ => none
      else
        match rest with
        | t1 :: sep :: t2 :: vT :: sfx =>
          if sep = toTok then
            match parseVolTok vT, parseSfx sfx with
            | some v, some f =>
              some (mkEntry .inc (timeVal short t1) (timeVal short t2) v f)
            | _, _ => none
          else none
        | _ => none
    else if ty = typeTok .fullSig then
      match rest with
      | tT :: sfx =>
        match parseSfx sfx with
        | some f =>
          some (mkEntry .fullSig (timeVal short tT) (timeVal short tT) 0 f)
        | none => none
      | [] => none
    else if ty = typeTok .newSig then
      if short then
        match rest with
        | t1 :: t2 :: sfx =>
          match parseSfx sfx with
          | some f =>
            some (mkEntry .newSig (timeVal short t1) (timeVal short t2) 0 f)
          | none => none
        | _ => none
      else
        match rest with
        | t1 :: sep :: t2 :: sfx =>
          if sep = toTok then
            match parseSfx sfx with
            | some f =>
              some (mkEntry .newSig (timeVal short t1) (timeVal short t2) 0 f)
            | none => none
          else none
        | _ => none
    else none

/-- Parse one grammar body, accepting only the canonical spelling of a
valid entry; anything else is "no match". -/
def parseBody (short : Bool) (s : List Char) : Option ChainEntry :=
  match parseBodyToks short (splitDots s) with
  | some e => if ValidEntry e ∧ body short e = s then some e else none
  | none => none

/-- Attempt one type-specific prefix class: strip its prefix, parse the
remainder against that class's grammar (the parse must produce an entry of
this very class). -/
def tryClass (cfg : NamingConfig) (b : PrefClass) (r : List Char) :
    Option ChainEntry :=
  match dropPref (classPref cfg b) r with
  | none => none
  | some r2 =>
    match parseBody cfg.shortNames r2 with
    | some e => if branchOf e = b then some e else none
    | none => none

/-- Decoding: strip the global prefix (no match when absent), then try the
manifest, signature and archive prefixes in turn. -/
def decodeL (cfg : NamingConfig) (s : List Char) : Option ChainEntry :=
  match dropPref cfg.filePref.data s with
  | none => none
  | some r =>
    match tryClass cfg .maniPref r with
    | some e => some e
    | none =>
      match tryClass cfg .sigPref r with
      | some e => some e
      | none => tryClass cfg .archPref r

/-- file_naming.parse: decode a filename string. -/
def file_naming_parse (cfg : NamingConfig) (s : String) : Option ChainEntry :=
  decodeL cfg s.data

/-! ## Split / join infrastructure for the codec proofs -/

theorem splitOnChar_no_sep (sep : Char) :
    ∀ t : List Char, sep ∉ t → splitOnChar sep t = [t] := by
  intro t
  induction t with
  | nil => intro _; rfl
  | cons c rest ih =>
    intro hns
    have hc : ¬(c = sep) := fun h => hns (h ▸ List.mem_cons_self c rest)
    have hr : sep ∉ rest := fun h => hns (List.mem_cons_of_mem c h)
    rw [splitOnChar, if_neg hc, ih hr]

theorem splitOnChar_append (sep : Char) :
    ∀ t r : List Char, sep ∉ t →
    splitOnChar sep (t ++ sep :: r) = t :: splitOnChar sep r := by
  intro t
  induction t with
  | nil =>
    intro r _
    show splitOnChar sep (sep :: r) = [] :: splitOnChar sep r
    rw [splitOnChar, if_pos rfl]
  | cons c t2 ih =>
    intro r hns
    have hc : ¬(c = sep) := fun h => hns (h ▸ List.mem_cons_self c t2)
    have ht : sep ∉ t2 := fun h => hns (List.mem_cons_of_mem c h)
    show splitOnChar sep (c :: (t2 ++ sep :: r)) = (c :: t2) :: splitOnChar sep r
    rw [splitOnChar, if_neg hc, ih r ht]

theorem joinChar_cons₂ (sep : Char) (t r : List Char) (rs : List (List Char)) :
    joinChar sep (t :: r :: rs) = t ++ sep :: joinChar sep (r :: rs) := rfl

theorem split_join (sep : Char) :
    ∀ ts : List (List Char), ts ≠ [] → (∀ t ∈ ts, sep ∉ t) →
    splitOnChar sep (joinChar sep ts) = ts := by
  intro ts
  induction ts with
  | nil => intro h; exact absurd rfl h
  | cons t rest ih =>
    intro _ hns
    cases rest with
    | nil =>
      show splitOnChar sep (joinChar sep [t]) = [t]
      rw [joinChar]
      exact splitOnChar_no_sep sep t (hns t (List.mem_cons_self t []))
    | cons r rs =>
      rw [joinChar_cons₂ sep t r rs]
      rw [splitOnChar_append sep t _ (hns t (List.mem_cons_self t _))]
      rw [ih (by simp) (fun x hx => hns x (List.mem_cons_of_mem t hx))]

theorem joinChar_cons_decomp (sep : Char) (t : List Char)
    (rest : List (List Char)) :
    ∃ r, joinChar sep (t :: rest) = t ++ r := by
  cases rest with
  | nil => exact ⟨[], by simp [joinChar]⟩
  | cons a as => exact ⟨sep :: joinChar sep (a :: as), rfl⟩

theorem joinChar_ne_nil (sep : Char) (ts : List (List Char))
    (hne : ts ≠ []) (hwf : ∀ t ∈ ts, t ≠ []) : joinChar sep ts ≠ [] := by
  cases ts with
  | nil => exact absurd rfl hne
  | cons t rest =>
    obtain ⟨r, hr⟩ := joinChar_cons_decomp sep t rest
    rw [hr]
    have ht : t ≠ [] := hwf t (List.mem_cons_self t rest)
    cases t with
    | nil => exact absurd rfl ht
    | cons c cs => simp

theorem sepSplit (sep : Char) :
    ∀ a b u v : List Char, sep ∉ a → sep ∉ b →
    a ++ sep :: u = b ++ sep :: v → a = b ∧ u = v := by
  intro a
  induction a with
  | nil =>
    intro b u v _ hb h
    cases b with
    | nil => simpa using h
    | cons c bs =>
      simp only [List.nil_append, List.cons_append, List.cons.injEq] at h
      exact absurd (h.1 ▸ List.mem_cons_self c bs) hb
  | cons c as ih =>
    intro b u v ha hb h
    cases b with
    | nil =>
      simp only [List.cons_append, List.nil_append, List.cons.injEq] at h
      exact absurd (h.1.symm ▸ List.mem_cons_self c as) ha
    | cons d bs =>
      simp only [List.cons_append, List.cons.injEq] at h
      have ha2 : sep ∉ as := fun hx => ha (List.mem_cons_of_mem c hx)
      have hb2 : sep ∉ bs := fun hx => hb (List.mem_cons_of_mem d hx)
      obtain ⟨h1, h2⟩ := ih bs u v ha2 hb2 h.2
      exact ⟨by rw [h.1, h1], h2⟩

theorem join_inj (sep : Char) :
    ∀ ts ts' : List (List Char),
    (∀ t ∈ ts, t ≠ [] ∧ sep ∉ t) → (∀ t ∈ ts', t ≠ [] ∧ sep ∉ t) →
    joinChar sep ts = joinChar sep ts' → ts = ts' := by
  intro ts
  induction ts with
  | nil =>
    intro ts' _ hwf' h
    cases ts' with
    | nil => rfl
    | cons t' l' =>
      exfalso
      apply joinChar_ne_nil sep (t' :: l') (by simp)
        (fun x hx => (hwf' x hx).1)
      exact h.symm
  | cons t l ih =>
    intro ts' hwf hwf' h
    cases ts' with
    | nil =>
      exfalso
      apply joinChar_ne_nil sep (t :: l) (by simp) (fun x hx => (hwf x hx).1)
      exact h
    | cons t' l' =>
      cases l with
      | nil =>
        cases l' with
        | nil =>
          simp only [joinChar] at h
          rw [h]
        | cons r' rs' =>
          exfalso
          rw [joinChar, joinChar_cons₂] at h
          have : sep ∈ t := by
            rw [h]
            exact List.mem_append_right t' (List.mem_cons_self sep _)
          exact (hwf t (List.mem_cons_self t [])).2 this
      | cons r rs =>
        cases l' with
        | nil =>
          exfalso
          rw [joinChar_cons₂, joinChar] at h
          have : sep ∈ t' := by
            rw [← h]
            exact List.mem_append_right t (List.mem_cons_self sep _)
          exact (hwf' t' (List.mem_cons_self t' [])).2 this
        | cons r' rs' =>
          rw [joinChar_cons₂, joinChar_cons₂] at h
          obtain ⟨h1, h2⟩ := sepSplit sep t t' _ _
            (hwf t (List.mem_cons_self t _)).2
            (hwf' t' (List.mem_cons_self t' _)).2 h
          have h3 := ih (r' :: rs')
            (fun x hx => hwf x (List.mem_cons_of_mem t hx))
            (fun x hx => hwf' x (List.mem_cons_of_mem t' hx)) h2
          rw [h1, h3]

theorem join_suffix_decomp (sep : Char) :
    ∀ ts2 : List (List Char), ∀ m : Nat, ∀ ts1 : List (List Char),
    (∀ t ∈ ts2, t ≠ [] ∧ sep ∉ t) → (∀ t ∈ ts1, t ≠ [] ∧ sep ∉ t) →
    ts1 ≠ [] →
    joinChar sep ts1 = (joinChar sep ts2).drop m →
    ∃ pre tok u x suf, ts2 = pre ++ tok :: suf ∧ u ++ x = tok ∧ x ≠ [] ∧
      ts1 = x :: suf := by
  intro ts2
  induction ts2 with
  | nil =>
    intro m ts1 _ hwf1 hne1 h
    exfalso
    apply joinChar_ne_nil sep ts1 hne1 (fun x hx => (hwf1 x hx).1)
    simpa [joinChar] using h
  | cons t rest ih =>
    intro m ts1 hwf2 hwf1 hne1 h
    have htwf : t ≠ [] ∧ sep ∉ t := hwf2 t (List.mem_cons_self t rest)
    cases rest with
    | nil =>
      have hjoin : joinChar sep [t] = t := rfl
      rw [hjoin] at h
      cases ts1 with
      | nil => exact absurd rfl hne1
      | cons x ts1' =>
        cases ts1' with
        | nil =>
          have hx : x = t.drop m := by simpa [joinChar] using h
          refine ⟨[], t, t.take m, x, [], by simp, ?_, ?_, rfl⟩
          · rw [hx, List.take_append_drop]
          · exact (hwf1 x (List.mem_cons_self x [])).1
        | cons a as =>
          exfalso
          rw [joinChar_cons₂] at h
          have hsep : sep ∈ x ++ sep :: joinChar sep (a :: as) :=
            List.mem_append_right x (List.mem_cons_self sep _)
          rw [h] at hsep
          exact htwf.2 (List.mem_of_mem_drop hsep)
    | cons r rs =>
      rw [joinChar_cons₂] at h
      by_cases hm : m ≤ t.length
      · rw [List.drop_append_eq_append_drop] at h
        by_cases hdt : t.drop m = []
        · have hm2 : m - t.length = 0 := by omega
          rw [hdt, hm2] at h
          simp only [List.nil_append, List.drop_zero] at h
          cases ts1 with
          | nil => exact absurd rfl hne1
          | cons x ts1' =>
            exfalso
            obtain ⟨rr, hrr⟩ := joinChar_cons_decomp sep x ts1'
            rw [hrr] at h
            obtain ⟨hx1, hx2⟩ := hwf1 x (List.mem_cons_self x ts1')
            cases x with
            | nil => exact absurd rfl hx1
            | cons c cs =>
              simp only [List.cons_append, List.cons.injEq] at h
              exact hx2 (h.1 ▸ List.mem_cons_self c cs)
        · have hm2 : m - t.length = 0 := by omega
          rw [hm2] at h
          simp only [List.drop_zero] at h
          cases ts1 with
          | nil => exact absurd rfl hne1
          | cons x ts1' =>
            cases ts1' with
            | nil =>
              exfalso
              have hx : x = t.drop m ++ sep :: joinChar sep (r :: rs) := by
                simpa [joinChar] using h
              apply (hwf1 x (List.mem_cons_self x [])).2
              rw [hx]
              exact List.mem_append_right _ (List.mem_cons_self sep _)
            | cons a as =>
              rw [joinChar_cons₂] at h
              have hdsep : sep ∉ t.drop m :=
                fun hx => htwf.2 (List.mem_of_mem_drop hx)
              obtain ⟨h1, h2⟩ := sepSplit sep x (t.drop m) _ _
                (hwf1 x (List.mem_cons_self x _)).2 hdsep h
              have h3 : a :: as = r :: rs :=
                join_inj sep (a :: as) (r :: rs)
                  (fun y hy => hwf1 y (List.mem_cons_of_mem x hy))
                  (fun y hy => hwf2 y (List.mem_cons_of_mem t hy)) h2
              refine ⟨[], t, t.take m, x, r :: rs, by simp, ?_, ?_, ?_⟩
              · rw [h1, List.take_append_drop]
              · exact (hwf1 x (List.mem_cons_self x _)).1
              · rw [h3]
      · rw [List.drop_append_eq_append_drop] at h
        have hdt : t.drop m = [] := List.drop_eq_nil_of_le (by omega)
        have hm2 : m - t.length = (m - t.length - 1) + 1 := by omega
        rw [hdt, hm2] at h
        simp only [List.nil_append, List.drop_succ_cons] at h
        obtain ⟨pre, tok, u, x, suf, hsplit, hux, hxne, hts1⟩ :=
          ih (m - t.length - 1) ts1
            (fun y hy => hwf2 y (List.mem_cons_of_mem t hy)) hwf1 hne1 h
        exact ⟨t :: pre, tok, u, x, suf, by rw [List.cons_append, hsplit],
          hux, hxne, hts1⟩

/-! ## Character-level facts about the codec tokens -/

theorem digCh_mem_take : ∀ b : Nat, b ≤ 36 → ∀ d : Nat, d < b →
    digCh d ∈ List.take b radixDigits := by decide

theorem toRadixAux_mem (b : Nat) (hb : 2 ≤ b) (hb36 : b ≤ 36) :
    ∀ fuel n, n ≤ fuel → ∀ c ∈ toRadixAux b fuel n,
    c ∈ List.take b radixDigits := by
  intro fuel
  induction fuel with
  | zero =>
    intro n hn c hc
    have h0 : n = 0 := by omega
    subst h0
    simp only [toRadixAux, List.mem_singleton] at hc
    exact hc ▸ digCh_mem_take b hb36 0 (by omega)
  | succ fuel ih =>
    intro n hn c hc
    rw [toRadixAux] at hc
    split at hc
    · rename_i h
      have hnb : n < b := by
        rcases h with h | h
        · exact h
        · omega
      simp only [List.mem_singleton] at hc
      exact hc ▸ digCh_mem_take b hb36 n hnb
    · rename_i h
      rw [not_or] at h
      rcases List.mem_append.mp hc with h1 | h2
      · have hdiv : n / b < n := Nat.div_lt_self (by omega) (by omega)
        exact ih (n / b) (by omega) c h1
      · simp only [List.mem_singleton] at h2
        have hmb : n % b < b := Nat.mod_lt n (by omega)
        exact h2 ▸ digCh_mem_take b hb36 (n % b) hmb

theorem toRadixAux_ne_nil (b : Nat) : ∀ fuel n, toRadixAux b fuel n ≠ [] := by
  intro fuel n
  cases fuel with
  | zero => simp [toRadixAux]
  | succ fuel =>
    rw [toRadixAux]
    split
    · simp
    · simp

theorem toRadix_mem (b : Nat) (hb : 2 ≤ b) (hb36 : b ≤ 36) (n : Nat) :
    ∀ c ∈ toRadix b n, c ∈ List.take b radixDigits :=
  toRadixAux_mem b hb hb36 n n le_rfl

theorem timeTok_mem_radix (short : Bool) (t : Nat) :
    ∀ c ∈ timeTok short t, c ∈ radixDigits := by
  intro c hc
  cases short with
  | true =>
    simp only [timeTok, if_pos] at hc
    have h := toRadix_mem 36 (by omega) (by omega) t c hc
    exact List.take_subset 36 radixDigits h
  | false =>
    simp only [timeTok, if_neg] at hc
    have h := toRadix_mem 10 (by omega) (by omega) t c hc
    exact List.take_subset 10 radixDigits h

theorem timeTok_ne_nil (short : Bool) (t : Nat) : timeTok short t ≠ [] := by
  cases short <;> simp [timeTok, toRadix, toRadixAux_ne_nil]

theorem dot_not_mem_radix : '.' ∉ radixDigits := by decide

theorem dash_not_mem_radix : '-' ∉ radixDigits := by decide

theorem timeTok_no_dot (short : Bool) (t : Nat) : '.' ∉ timeTok short t :=
  fun h => dot_not_mem_radix (timeTok_mem_radix short t '.' h)

theorem timeTok_no_dash (short : Bool) (t : Nat) : '-' ∉ timeTok short t :=
  fun h => dash_not_mem_radix (timeTok_mem_radix short t '-' h)

theorem timeTok_long_ne_toTok (t : Nat) : timeTok false t ≠ toTok := by
  intro h
  have ht : 't' ∈ timeTok false t := by
    rw [h]
    decide
  simp only [timeTok, if_neg] at ht
  have := toRadix_mem 10 (by omega) (by omega) t 't' ht
  revert this
  decide

theorem volTok_wf (n : Nat) : volTok n ≠ [] ∧ '.' ∉ volTok n ∧ '-' ∉ volTok n := by
  refine ⟨by simp [volTok, volCh], ?_, ?_⟩
  · intro h
    rcases List.mem_append.mp h with h1 | h2
    · revert h1
      decide
    · have := toRadix_mem 10 (by omega) (by omega) n '.' h2
      revert this
      decide
  · intro h
    rcases List.mem_append.mp h with h1 | h2
    · revert h1
      decide
    · have := toRadix_mem 10 (by omega) (by omega) n '-' h2
      revert this
      decide

theorem typeTok_wf (st : SetType) : typeTok st ≠ [] ∧ '.' ∉ typeTok st := by
  cases st <;> exact (by decide)

theorem sfx_mem_cases (m c en p : Bool) (t : List Char)
    (h : t ∈ sfxOf m c en p) :
    t = manifestTok ∨ t = gzTok ∨ t = gpgTok ∨ t = partTok := by
  cases m <;> cases c <;> cases en <;> cases p <;> simp_all [sfxOf] <;> tauto

theorem sfx_tok_wf (t : List Char)
    (h : t = manifestTok ∨ t = gzTok ∨ t = gpgTok ∨ t = partTok) :
    t ≠ [] ∧ '.' ∉ t ∧ '-' ∉ t := by
  rcases h with rfl | rfl | rfl | rfl <;> exact (by decide)

theorem volTok_ne_sfx (n : Nat) (t : List Char)
    (h : t = manifestTok ∨ t = gzTok ∨ t = gpgTok ∨ t = partTok) :
    volTok n ≠ t := by
  rcases h with rfl | rfl | rfl | rfl <;>
    simp [volTok, volCh, manifestTok, gzTok, gpgTok, partTok]

theorem toTok_ne_sfx (t : List Char)
    (h : t = manifestTok ∨ t = gzTok ∨ t = gpgTok ∨ t = partTok) :
    toTok ≠ t := by
  rcases h with rfl | rfl | rfl | rfl <;> decide

theorem timeToks_mem_cases (short : Bool) (e : ChainEntry) (t : List Char)
    (h : t ∈ timeToks short e) :
    t = timeTok short e.startTime ∨ t = timeTok short e.endTime ∨
      (short = false ∧ t = toTok) := by
  rw [timeToks] at h
  split at h
  · split at h
    · rename_i hs
      rcases List.mem_cons.mp h with rfl | h2
      · exact Or.inl rfl
      rcases List.mem_cons.mp h2 with rfl | h3
      · exact Or.inr (Or.inl rfl)
      · cases h3
    · rename_i hs
      rcases List.mem_cons.mp h with rfl | h2
      · exact Or.inl rfl
      rcases List.mem_cons.mp h2 with rfl | h3
      · exact Or.inr (Or.inr ⟨by simpa using hs, rfl⟩)
      rcases List.mem_cons.mp h3 with rfl | h4
      · exact Or.inr (Or.inl rfl)
      · cases h4
  · rcases List.mem_cons.mp h with rfl | h2
    · exact Or.inl rfl
    · cases h2

theorem volToks_mem_cases (e : ChainEntry) (t : List Char)
    (h : t ∈ volToks e) : t = volTok e.volumeNumber := by
  rw [volToks] at h
  split at h
  · simpa using h
  · cases h

theorem bodyToks_wf (short : Bool) (e : ChainEntry) :
    ∀ t ∈ bodyToks short e, t ≠ [] ∧ '.' ∉ t := by
  intro t ht
  rw [bodyToks] at ht
  rcases List.mem_cons.mp ht with rfl | hrest
  · exact typeTok_wf e.setType
  · rcases List.mem_append.mp hrest with h12 | hsfx
    · rcases List.mem_append.mp h12 with htime | hvol
      · rcases timeToks_mem_cases short e t htime with rfl | rfl | ⟨_, rfl⟩
        · exact ⟨timeTok_ne_nil short _, timeTok_no_dot short _⟩
        · exact ⟨timeTok_ne_nil short _, timeTok_no_dot short _⟩
        · exact (by decide)
      · rcases volToks_mem_cases e t hvol with rfl
        obtain ⟨h1, h2, _⟩ := volTok_wf e.volumeNumber
        exact ⟨h1, h2⟩
    · obtain ⟨h1, h2, _⟩ := sfx_tok_wf t
        (sfx_mem_cases e.manifest e.compressed e.encrypted e.partialFlag t hsfx)
      exact ⟨h1, h2⟩

/-! ## Parse correctness on canonical encodings -/

theorem dropPref_append : ∀ p s : List Char, dropPref p (p ++ s) = some s := by
  intro p
  induction p with
  | nil => intro s; rfl
  | cons c cs ih =>
    intro s
    show dropPref (c :: cs) (c :: (cs ++ s)) = some s
    rw [dropPref, if_pos rfl]
    exact ih s

theorem dropPref_eq_some : ∀ p s r : List Char, dropPref p s = some r →
    s = p ++ r := by
  intro p
  induction p with
  | nil =>
    intro s r h
    cases h
    rfl
  | cons c cs ih =>
    intro s r h
    cases s with
    | nil => cases h
    | cons d ds =>
      rw [dropPref] at h
      split at h
      · rename_i hcd
        rw [List.cons_append, hcd, ih ds r h]
      · cases h

theorem parseSfx_sfxOf : ∀ m c en p : Bool,
    parseSfx (sfxOf m c en p) = some (m, c, en, p) := by decide

theorem timeVal_timeTok (short : Bool) (t : Nat) :
    timeVal short (timeTok short t) = t := by
  cases short with
  | true =>
    show fromRadix 36 (toRadix 36 t) = t
    exact fromRadix_toRadix 36 (by omega) (by omega) t
  | false =>
    show fromRadix 10 (toRadix 10 t) = t
    exact fromRadix_toRadix 10 (by omega) (by omega) t

theorem parseVolTok_volTok (n : Nat) : parseVolTok (volTok n) = some n := by
  rw [parseVolTok, volTok, dropPref_append]
  simp [fromRadix_toRadix 10 (by omega) (by omega) n]

theorem parseBodyToks_bodyToks (short : Bool) (e : ChainEntry)
    (hv : ValidEntry e) : parseBodyToks short (bodyToks short e) = some e := by
  obtain ⟨hv1, hv2, hv3⟩ := hv
  obtain ⟨st, t1, t2, v, m, c, en, p⟩ := e
  cases st with
  | full =>
    have ht : t2 = t1 := hv1 rfl
    subst ht
    cases short <;>
      simp [parseBodyToks, bodyToks, timeToks, volToks, sfxToks, isRangeType,
        hasVolume, parseVolTok_volTok, parseSfx_sfxOf, timeVal_timeTok, mkEntry]
  | inc =>
    cases short <;>
      simp [parseBodyToks, bodyToks, timeToks, volToks, sfxToks, isRangeType,
        hasVolume, parseVolTok_volTok, parseSfx_sfxOf, timeVal_timeTok, mkEntry,
        typeTok]
  | fullSig =>
    have ht : t2 = t1 := hv1 rfl
    have hvol : v = 0 := hv3 rfl
    subst ht
    subst hvol
    cases short <;>
      simp [parseBodyToks, bodyToks, timeToks, volToks, sfxToks, isRangeType,
        hasVolume, parseSfx_sfxOf, timeVal_timeTok, mkEntry, typeTok]
  | newSig =>
    have hvol : v = 0 := hv3 rfl
    subst hvol
    cases short <;>
      simp [parseBodyToks, bodyToks, timeToks, volToks, sfxToks, isRangeType,
        hasVolume, parseSfx_sfxOf, timeVal_timeTok, mkEntry, typeTok]

theorem splitDots_body (short : Bool) (e : ChainEntry) :
    splitDots (body short e) = bodyToks short e := by
  rw [splitDots, body, joinDots]
  exact split_join '.' (bodyToks short e) (by simp [bodyToks])
    (fun t ht => (bodyToks_wf short e t ht).2)

theorem parseBody_body (short : Bool) (e : ChainEntry) (hv : ValidEntry e) :
    parseBody short (body short e) = some e := by
  rw [parseBody, splitDots_body, parseBodyToks_bodyToks short e hv]
  show (if ValidEntry e ∧ body short e = body short e then some e else none) =
    some e
  rw [if_pos ⟨hv, rfl⟩]

theorem parseBody_canonical (short : Bool) (s : List Char) (e : ChainEntry)
    (h : parseBody short s = some e) : ValidEntry e ∧ body short e = s := by
  rw [parseBody] at h
  cases hp : parseBodyToks short (splitDots s) with
  | none => rw [hp] at h; cases h
  | some e2 =>
    rw [hp] at h
    have h2 : (if ValidEntry e2 ∧ body short e2 = s then some e2 else none) =
        some e := h
    split at h2
    · rename_i hcond
      cases h2
      exact hcond
    · cases h2

/-! ## Suffix analysis: a body that is a proper suffix of another body
belongs to the same prefix class -/

def isSfxTok (t : List Char) : Prop :=
  t = manifestTok ∨ t = gzTok ∨ t = gpgTok ∨ t = partTok

def allSfx (l : List (List Char)) : Prop := ∀ t ∈ l, isSfxTok t

theorem allSfx_sfxOf (m c en p : Bool) : allSfx (sfxOf m c en p) :=
  fun t ht => sfx_mem_cases m c en p t ht

theorem sfxOf_inj : ∀ m c en p m2 c2 en2 p2 : Bool,
    sfxOf m c en p = sfxOf m2 c2 en2 p2 →
    m = m2 ∧ c = c2 ∧ en = en2 ∧ p = p2 := by decide

theorem not_isSfxTok_volTok (n : Nat) : ¬ isSfxTok (volTok n) :=
  fun h => volTok_ne_sfx n (volTok n) h rfl

theorem volTok_ne_toTok (n : Nat) : volTok n ≠ toTok := by
  simp [volTok, volCh, toTok]

theorem volTok_ne_timeTok_long (n t : Nat) : volTok n ≠ timeTok false t := by
  intro h
  have hv : 'v' ∈ volTok n := by simp [volTok, volCh]
  rw [h] at hv
  simp only [timeTok, if_neg] at hv
  have := toRadix_mem 10 (by omega) (by omega) t 'v' hv
  revert this
  decide

theorem sfx_unique_decomp :
    ∀ A1 A2 : List (List Char), ∀ v1 v2 : List Char,
    ∀ S1 S2 : List (List Char),
    allSfx S1 → allSfx S2 → ¬ isSfxTok v1 → ¬ isSfxTok v2 →
    A1 ++ v1 :: S1 = A2 ++ v2 :: S2 → A1 = A2 ∧ v1 = v2 ∧ S1 = S2 := by
  intro A1
  induction A1 with
  | nil =>
    intro A2 v1 v2 S1 S2 hS1 hS2 hv1 hv2 h
    cases A2 with
    | nil =>
      simp only [List.nil_append, List.cons.injEq] at h
      exact ⟨rfl, h.1, h.2⟩
    | cons y A2' =>
      exfalso
      simp only [List.nil_append, List.cons_append, List.cons.injEq] at h
      apply hv2
      apply hS1
      rw [h.2]
      exact List.mem_append_right A2' (List.mem_cons_self v2 S2)
  | cons a A1' ih =>
    intro A2 v1 v2 S1 S2 hS1 hS2 hv1 hv2 h
    cases A2 with
    | nil =>
      exfalso
      simp only [List.cons_append, List.nil_append, List.cons.injEq] at h
      apply hv1
      apply hS2
      rw [← h.2]
      exact List.mem_append_right A1' (List.mem_cons_self v1 S1)
    | cons y A2' =>
      simp only [List.cons_append, List.cons.injEq] at h
      obtain ⟨h1, h2, h3⟩ := ih A2' v1 v2 S1 S2 hS1 hS2 hv1 hv2 h.2
      exact ⟨by rw [h.1, h1], h2, h3⟩

theorem typeTok_suffix (a b : SetType) (u : List Char)
    (h : u ++ typeTok a = typeTok b) : u = [] ∧ a = b := by
  have hlen : u.length + (typeTok a).length = (typeTok b).length := by
    have := congrArg List.length h
    simpa using this
  have hdrop : typeTok a = (typeTok b).drop u.length := by
    have := congrArg (List.drop u.length) h
    rwa [List.drop_left] at this
  cases a <;> cases b <;> simp only [typeTok, List.length_cons,
      List.length_nil] at hlen hdrop <;>
    first
    | exact ⟨List.length_eq_zero.mp (by omega), rfl⟩
    | omega
    | (have hu : u.length = 1 := by omega
       rw [hu] at hdrop
       simp at hdrop)
    | (have hu : u.length = 3 := by omega
       rw [hu] at hdrop
       simp at hdrop)
    | (have hu : u.length = 4 := by omega
       rw [hu] at hdrop
       simp at hdrop)
    | (have hu : u.length = 5 := by omega
       rw [hu] at hdrop
       simp at hdrop)

theorem typeTok_sig_dash (st : SetType) (h : isSigType st = true) :
    '-' ∈ typeTok st := by
  cases st with
  | fullSig => decide
  | newSig => decide
  | full => cases h
  | inc => cases h

theorem tailToks_no_dash (short : Bool) (e : ChainEntry) :
    ∀ t ∈ timeToks short e ++ volToks e ++ sfxToks e, '-' ∉ t := by
  intro t ht
  rcases List.mem_append.mp ht with h12 | hsfx
  · rcases List.mem_append.mp h12 with htime | hvol
    · rcases timeToks_mem_cases short e t htime with rfl | rfl | ⟨_, rfl⟩
      · exact timeTok_no_dash short _
      · exact timeTok_no_dash short _
      · decide
    · rcases volToks_mem_cases e t hvol with rfl
      exact (volTok_wf e.volumeNumber).2.2
  · exact (sfx_tok_wf t
      (sfx_mem_cases e.manifest e.compressed e.encrypted e.partialFlag t hsfx)).2.2

theorem timeToks_ne_nil (short : Bool) (e : ChainEntry) :
    timeToks short e ≠ [] := by
  rw [timeToks]
  split
  · split <;> simp
  · simp

theorem branchOf_congr (e1 e2 : ChainEntry) (hm : e1.manifest = e2.manifest)
    (hs : isSigType e1.setType = isSigType e2.setType) :
    branchOf e1 = branchOf e2 := by
  rw [branchOf, branchOf, hm, hs]

theorem body_ne_nil (short : Bool) (e : ChainEntry) : body short e ≠ [] := by
  rw [body, joinDots]
  exact joinChar_ne_nil '.' (bodyToks short e) (by simp [bodyToks])
    (fun t ht => (bodyToks_wf short e t ht).1)

theorem allSfx_sfxToks (e : ChainEntry) : allSfx (sfxToks e) := by
  rw [sfxToks]
  exact allSfx_sfxOf e.manifest e.compressed e.encrypted e.partialFlag

theorem body_suffix_branch (short : Bool) (e1 e2 : ChainEntry) (m : Nat)
    (hm : 1 ≤ m) (h : body short e1 = (body short e2).drop m) :
    branchOf e1 = branchOf e2 := by
  obtain ⟨pre, tok, u, x, suf, hsplit, hux, hxne, hts1⟩ :=
    join_suffix_decomp '.' (bodyToks short e2) m (bodyToks short e1)
      (bodyToks_wf short e2) (bodyToks_wf short e1) (by simp [bodyToks]) h
  have hts1' : typeTok e1.setType ::
      (timeToks short e1 ++ volToks e1 ++ sfxToks e1) = x :: suf := hts1
  injection hts1' with hx1 hx2
  cases pre with
  | nil =>
    exfalso
    rw [List.nil_append] at hsplit
    have hsplit' : typeTok e2.setType ::
        (timeToks short e2 ++ volToks e2 ++ sfxToks e2) = tok :: suf := hsplit
    injection hsplit' with hy1 hy2
    have hsfx : u ++ typeTok e1.setType = typeTok e2.setType := by
      rw [hx1, hux, hy1]
    obtain ⟨hu0, hab⟩ := typeTok_suffix e1.setType e2.setType u hsfx
    have hbeq : body short e1 = body short e2 := by
      rw [body, body, joinDots, hts1, hsplit]
      subst hu0
      simp only [List.nil_append] at hux
      rw [hux]
    rw [hbeq] at h
    have hlen := congrArg List.length h
    rw [List.length_drop] at hlen
    have hpos : 0 < (body short e2).length :=
      List.length_pos.mpr (body_ne_nil short e2)
    omega
  | cons p0 pre' =>
    have hsplit' : typeTok e2.setType ::
        (timeToks short e2 ++ volToks e2 ++ sfxToks e2) =
        p0 :: (pre' ++ tok :: suf) := hsplit
    injection hsplit' with hy1 hy2
    have htok_mem : tok ∈ timeToks short e2 ++ volToks e2 ++ sfxToks e2 := by
      rw [hy2]
      exact List.mem_append_right pre' (List.mem_cons_self tok suf)
    cases hsig1 : isSigType e1.setType with
    | true =>
      exfalso
      have hdash : '-' ∈ x := by
        rw [← hx1]
        exact typeTok_sig_dash e1.setType hsig1
      have hdash2 : '-' ∈ tok := by
        rw [← hux]
        exact List.mem_append_right u hdash
      exact tailToks_no_dash short e2 tok htok_mem hdash2
    | false =>
      have hvol1 : hasVolume e1.setType = true := by
        cases hst1 : e1.setType <;> rw [hst1] at hsig1 <;>
          first
          | rfl
          | simp [isSigType] at hsig1
      have hsuf : suf = timeToks short e1 ++
          (volTok e1.volumeNumber :: sfxToks e1) := by
        rw [← hx2, volToks, if_pos hvol1]
        simp [List.append_assoc]
      have hy2' : timeToks short e2 ++ volToks e2 ++ sfxToks e2 =
          (pre' ++ tok :: timeToks short e1) ++
            volTok e1.volumeNumber :: sfxToks e1 := by
        rw [hy2, hsuf]
        simp [List.append_assoc]
      cases hvol2 : hasVolume e2.setType with
      | true =>
        have htail2 : timeToks short e2 ++ volToks e2 ++ sfxToks e2 =
            timeToks short e2 ++ (volTok e2.volumeNumber :: sfxToks e2) := by
          rw [volToks, if_pos hvol2]
          simp [List.append_assoc]
        have heq : timeToks short e2 ++ (volTok e2.volumeNumber :: sfxToks e2) =
            (pre' ++ tok :: timeToks short e1) ++
              volTok e1.volumeNumber :: sfxToks e1 := by
          rw [← htail2, hy2']
        obtain ⟨_, _, hS⟩ := sfx_unique_decomp (timeToks short e2)
          (pre' ++ tok :: timeToks short e1) (volTok e2.volumeNumber)
          (volTok e1.volumeNumber) (sfxToks e2) (sfxToks e1)
          (allSfx_sfxToks e2) (allSfx_sfxToks e1)
          (not_isSfxTok_volTok _) (not_isSfxTok_volTok _) heq
        have hflags := sfxOf_inj e2.manifest e2.compressed e2.encrypted
          e2.partialFlag e1.manifest e1.compressed e1.encrypted e1.partialFlag
          hS
        apply branchOf_congr e1 e2 hflags.1.symm
        rw [hsig1]
        cases hst2 : e2.setType <;> rw [hst2] at hvol2 <;>
          first
          | rfl
          | simp [hasVolume] at hvol2
      | false =>
        exfalso
        have hvolmem : volTok e1.volumeNumber ∈
            timeToks short e2 ++ volToks e2 ++ sfxToks e2 := by
          rw [hy2']
          exact List.mem_append_right _ (List.mem_cons_self _ _)
        have hvolmem2 : volTok e1.volumeNumber ∈
            timeToks short e2 ++ sfxToks e2 := by
          rw [volToks, if_neg (by simp [hvol2])] at hvolmem
          simpa using hvolmem
        cases short with
        | false =>
          rcases List.mem_append.mp hvolmem2 with htime | hsfx2
          · rcases timeToks_mem_cases false e2 _ htime with heq2 | heq2 | ⟨_, heq2⟩
            · exact volTok_ne_timeTok_long _ _ heq2
            · exact volTok_ne_timeTok_long _ _ heq2
            · exact volTok_ne_toTok _ heq2
          · exact not_isSfxTok_volTok _ (allSfx_sfxToks e2 _ hsfx2)
        | true =>
          have hrange2 : isRangeType e2.setType = false ∨
              isRangeType e2.setType = true := by
            cases isRangeType e2.setType
            · exact Or.inl rfl
            · exact Or.inr rfl
          rcases hrange2 with hr2 | hr2
          · -- e2 has a single timestamp: its tail is T :: sfx
            have htt : timeToks true e2 = [timeTok true e2.startTime] := by
              rw [timeToks, if_neg (by simp [hr2])]
            rw [htt] at hy2'
            rw [volToks, if_neg (by simp [hvol2])] at hy2'
            simp only [List.append_nil, List.singleton_append] at hy2'
            -- T :: sfxToks e2 = (pre' ++ tok :: timeToks) ++ vol :: sfx1
            cases hC : pre' ++ tok :: timeToks true e1 with
            | nil => simp at hC
            | cons c0 C =>
              rw [hC, List.cons_append] at hy2'
              injection hy2' with hz1 hz2
              have : volTok e1.volumeNumber ∈ sfxToks e2 := by
                rw [hz2]
                exact List.mem_append_right C (List.mem_cons_self _ _)
              exact not_isSfxTok_volTok _ (allSfx_sfxToks e2 _ this)
          · -- e2 has two timestamps (short mode): tail is T1 :: T2 :: sfx
            have htt : timeToks true e2 =
                [timeTok true e2.startTime, timeTok true e2.endTime] := by
              rw [timeToks, if_pos hr2, if_pos rfl]
            rw [htt] at hy2'
            rw [volToks, if_neg (by simp [hvol2])] at hy2'
            simp only [List.append_nil, List.cons_append, List.nil_append]
              at hy2'
            cases hpre2 : pre' with
            | nil =>
              rw [hpre2] at hy2'
              simp only [List.nil_append, List.cons_append] at hy2'
              injection hy2' with hz1 hz2
              cases hA : timeToks true e1 with
              | nil => exact timeToks_ne_nil true e1 hA
              | cons a0 A1' =>
                rw [hA, List.cons_append] at hz2
                injection hz2 with hz3 hz4
                have : volTok e1.volumeNumber ∈ sfxToks e2 := by
                  rw [hz4]
                  exact List.mem_append_right A1' (List.mem_cons_self _ _)
                exact not_isSfxTok_volTok _ (allSfx_sfxToks e2 _ this)
            | cons q pre'' =>
              rw [hpre2] at hy2'
              simp only [List.cons_append] at hy2'
              injection hy2' with hz1 hz2
              cases hC : pre'' ++ tok :: timeToks true e1 with
              | nil => simp at hC
              | cons c0 C =>
                rw [hC, List.cons_append] at hz2
                injection hz2 with hz3 hz4
                have : volTok e1.volumeNumber ∈ sfxToks e2 := by
                  rw [hz4]
                  exact List.mem_append_right C (List.mem_cons_self _ _)
                exact not_isSfxTok_volTok _ (allSfx_sfxToks e2 _ this)

/-! ## The decode-encode round trip -/

theorem append_eq_drop {α : Type} (a b x y : List α)
    (h : a ++ x = b ++ y) (hab : a.length ≤ b.length) :
    y = x.drop (b.length - a.length) := by
  have h2 := congrArg (List.drop b.length) h
  rw [List.drop_left] at h2
  rw [List.drop_append_eq_append_drop] at h2
  rw [List.drop_eq_nil_of_le hab] at h2
  simpa using h2.symm

theorem tryClass_self (cfg : NamingConfig) (e : ChainEntry)
    (hv : ValidEntry e) :
    tryClass cfg (branchOf e)
      (classPref cfg (branchOf e) ++ body cfg.shortNames e) = some e := by
  rw [tryClass, dropPref_append]
  show (match parseBody cfg.shortNames (body cfg.shortNames e) with
    | some e2 => if branchOf e2 = branchOf e then some e2 else none
    | none => none) = some e
  rw [parseBody_body cfg.shortNames e hv]
  show (if branchOf e = branchOf e then some e else none) = some e
  rw [if_pos rfl]

theorem tryClass_other (cfg : NamingConfig) (b : PrefClass) (e : ChainEntry)
    (hv : ValidEntry e) (hb : b ≠ branchOf e) :
    tryClass cfg b
      (classPref cfg (branchOf e) ++ body cfg.shortNames e) = none := by
  rw [tryClass]
  cases hd : dropPref (classPref cfg b)
      (classPref cfg (branchOf e) ++ body cfg.shortNames e) with
  | none => rfl
  | some r2 =>
    show (match parseBody cfg.shortNames r2 with
      | some e2 => if branchOf e2 = b then some e2 else none
      | none => none) = none
    cases hp : parseBody cfg.shortNames r2 with
    | none => rfl
    | some e2 =>
      obtain ⟨hv2, hbody2⟩ := parseBody_canonical cfg.shortNames r2 e2 hp
      have hdeq := dropPref_eq_some _ _ _ hd
      rw [← hbody2] at hdeq
      have hbr : branchOf e2 = branchOf e := by
        rcases Nat.lt_trichotomy (classPref cfg b).length
            (classPref cfg (branchOf e)).length with hlt | heq | hgt
        · have hdrop := append_eq_drop (classPref cfg b)
            (classPref cfg (branchOf e)) (body cfg.shortNames e2)
            (body cfg.shortNames e) hdeq.symm (by omega)
          exact (body_suffix_branch cfg.shortNames e e2
            ((classPref cfg (branchOf e)).length - (classPref cfg b).length)
            (by omega) hdrop).symm
        · obtain ⟨hpeq, hbeq⟩ := List.append_inj hdeq heq.symm
          have he1 : parseBody cfg.shortNames (body cfg.shortNames e2) =
              some e2 := parseBody_body cfg.shortNames e2 hv2
          rw [← hbeq] at he1
          rw [parseBody_body cfg.shortNames e hv] at he1
          cases he1
          rfl
        · have hdrop := append_eq_drop (classPref cfg (branchOf e))
            (classPref cfg b) (body cfg.shortNames e)
            (body cfg.shortNames e2) hdeq (by omega)
          exact body_suffix_branch cfg.shortNames e2 e
            ((classPref cfg b).length - (classPref cfg (branchOf e)).length)
            (by omega) hdrop
      have hne : ¬(branchOf e2 = b) := by
        rw [hbr]
        exact fun hx => hb hx.symm
      show (if branchOf e2 = b then some e2 else none) = none
      rw [if_neg hne]

theorem decodeL_encodeL (cfg : NamingConfig) (e : ChainEntry)
    (hv : ValidEntry e) : decodeL cfg (encodeL cfg e) = some e := by
  rw [decodeL, encodeL, List.append_assoc, dropPref_append]
  show (match tryClass cfg .maniPref
      (classPref cfg (branchOf e) ++ body cfg.shortNames e) with
    | some e2 => some e2
    | none =>
      match tryClass cfg .sigPref
          (classPref cfg (branchOf e) ++ body cfg.shortNames e) with
      | some e2 => some e2
      | none => tryClass cfg .archPref
          (classPref cfg (branchOf e) ++ body cfg.shortNames e)) = some e
  cases hbr : branchOf e with
  | maniPref =>
    rw [← hbr, tryClass_self cfg e hv]
  | sigPref =>
    rw [← hbr, tryClass_other cfg .maniPref e hv (by rw [hbr]; exact nofun),
      tryClass_self cfg e hv]
  | archPref =>
    rw [← hbr, tryClass_other cfg .maniPref e hv (by rw [hbr]; exact nofun),
      tryClass_other cfg .sigPref e hv (by rw [hbr]; exact nofun),
      tryClass_self cfg e hv]

/-- C1: naming codec round trip — for every valid ChainEntry (every set
type, any timestamps, any volume number, any combination of the manifest,
compressed, encrypted and partial flags) and any fixed configuration
(short or long naming mode, any global and type-specific prefixes),
decoding the filename produced by encoding returns an entry identical to
the original in every field. -/
theorem naming_roundtrip (cfg : NamingConfig) (e : ChainEntry)
    (hv : ValidEntry e) :
    file_naming_parse cfg (file_naming_get cfg e) = some e := by
  rw [file_naming_parse, file_naming_get]
  exact decodeL_encodeL cfg e hv

theorem naming_roundtrip_witness :
    ValidEntry ⟨.inc, 10, 20, 23, true, true, true, true⟩ ∧
    file_naming_parse ⟨false, "global-", "mani-", "sign-", "arch-"⟩
        (file_naming_get ⟨false, "global-", "mani-", "sign-", "arch-"⟩
          ⟨.inc, 10, 20, 23, true, true, true, true⟩) =
      some ⟨.inc, 10, 20, 23, true, true, true, true⟩ :=
  ⟨by decide, naming_roundtrip ⟨false, "global-", "mani-", "sign-", "arch-"⟩
    ⟨.inc, 10, 20, 23, true, true, true, true⟩ (by decide)⟩
